import Mathlib

/-!
Verification development for the MeetScribe repository.

The Python sources `src/code/main.py` (recording, transcription, diarization,
speaker merging, alignment, persistence) and `src/code/new_UI.py` (dashboard
server) are shallowly embedded below.  Wall-clock times and audio timestamps
are modelled by rationals, Python dicts that are only ever extended or
updated in place by assoc lists, and the external ML models (transcription,
diarization, speaker embeddings) by parameters of the definitions.
-/

set_option maxHeartbeats 1600000

namespace MeetScribe

/-! ### Recording loop (src/code/main.py, lines 47-66)

Each iteration pulls one audio frame, classifies it with the WebRTC VAD and
either resets the silence timer (speech) or arms / checks it (silence).
`silence_start_time` starts as `None`; on the first silent frame of a run it
is set to the current wall-clock time, and a later silent frame stops the
loop when more than `silence_duration_limit` seconds have passed since then.
-/

/-- Model of one processed microphone frame: the wall-clock instant at which
the loop handles it and the boolean result of `is_speech` on its bytes. -/
structure Frame where
  t : ℚ
  speech : Bool
deriving DecidableEq, Repr

/-- Constant `silence_duration_limit = 2.0` from src/code/main.py line 35. -/
def silence_duration_limit : ℚ := 2

/-- Embedding of the `while recording:` loop body of src/code/main.py lines
48-66, specialised to the sequence of frames actually delivered.  The state
is `silence_start_time : Option ℚ`; the result is the index of the frame on
which the loop sets `recording = False` (`none` when the frame list is
exhausted with the loop still recording). -/
def recLoopAux : Option ℚ → ℕ → List Frame → Option ℕ
  | _, _, [] => none
  | st, i, f :: rest =>
    if f.speech then recLoopAux none (i + 1) rest
    else
      match st with
      | none => recLoopAux (some f.t) (i + 1) rest
      | some s =>
        if silence_duration_limit < f.t - s then some i
        else recLoopAux (some s) (i + 1) rest
  termination_by structural _ _ l => l

/-- Recording loop started with `silence_start_time = None`. -/
def recLoop (frames : List Frame) : Option ℕ := recLoopAux none 0 frames

/-- Modelled from the spec: the start of the current contiguous run of
silence frames at the end of `pfx` — the wall-clock time of the first frame
of the maximal all-silence suffix of `pfx` (`none` when `pfx` is empty or
ends with a speech frame). -/
def curRunStart (pfx : List Frame) : Option ℚ :=
  ((pfx.reverse.takeWhile (fun f => !f.speech)).getLast?).map Frame.t

/-- Modelled from the spec: frame `i` is a stopping frame when it is a
silence frame that arrives more than the silence timeout after the start of
the contiguous silence run it continues. -/
def stopCondB (frames : List Frame) (i : ℕ) : Bool :=
  match frames[i]?, curRunStart (frames.take i) with
  | some f, some s => !f.speech && decide (silence_duration_limit < f.t - s)
  | _, _ => false

/-- Modelled from the spec: first index at or after `i` (scanning at most
`fuel` indices) satisfying the stop condition. -/
def specStopFromFuel (frames : List Frame) : ℕ → ℕ → Option ℕ
  | 0, _ => none
  | fuel + 1, i => if stopCondB frames i then some i else specStopFromFuel frames fuel (i + 1)

/-- Modelled from the spec: the first frame index at which the claimed stop
condition holds, if any. -/
def specStop (frames : List Frame) : Option ℕ :=
  specStopFromFuel frames frames.length 0

lemma curRunStart_nil : curRunStart [] = none := rfl

lemma curRunStart_snoc_speech (pfx : List Frame) (f : Frame) (h : f.speech = true) :
    curRunStart (pfx ++ [f]) = none := by
  simp [curRunStart, List.takeWhile_cons, h]

lemma curRunStart_snoc_silence_none (pfx : List Frame) (f : Frame)
    (h : f.speech = false) (h2 : curRunStart pfx = none) :
    curRunStart (pfx ++ [f]) = some f.t := by
  have htw : (pfx.reverse.takeWhile (fun f => !f.speech)) = [] := by
    simpa [curRunStart, List.getLast?_eq_none_iff] using h2
  simp [curRunStart, List.takeWhile_cons, h, htw]

lemma curRunStart_snoc_silence_some (pfx : List Frame) (f : Frame) (s : ℚ)
    (h : f.speech = false) (h2 : curRunStart pfx = some s) :
    curRunStart (pfx ++ [f]) = some s := by
  have htw : (pfx.reverse.takeWhile (fun f => !f.speech)) ≠ [] := by
    intro hnil
    simp [curRunStart, hnil] at h2
  rcases List.exists_cons_of_ne_nil htw with ⟨a, l, hl⟩
  simp only [curRunStart, List.reverse_append, List.reverse_singleton,
    List.singleton_append, List.takeWhile_cons, h] at h2 ⊢
  simp only [Bool.not_false, if_true, hl, List.getLast?_cons_cons]
  simp only [hl] at h2
  exact h2

lemma stopCondB_at_append (pfx rest : List Frame) (f : Frame) :
    stopCondB (pfx ++ f :: rest) pfx.length =
      (match curRunStart pfx with
        | some s => !f.speech && decide (silence_duration_limit < f.t - s)
        | none => false) := by
  have hget : (pfx ++ f :: rest)[pfx.length]? = some f := by
    rw [List.getElem?_append_right (Nat.le_refl _)]
    simp
  have htake : (pfx ++ f :: rest).take pfx.length = pfx := by
    exact List.take_left pfx (f :: rest)
  rw [stopCondB, hget, htake]
  cases curRunStart pfx <;> rfl

lemma recLoopAux_spec (rest : List Frame) :
    ∀ pfx : List Frame,
      recLoopAux (curRunStart pfx) pfx.length rest =
        specStopFromFuel (pfx ++ rest) rest.length pfx.length := by
  induction rest with
  | nil => intro pfx; rfl
  | cons f rest ih =>
    intro pfx
    have hlen : (pfx ++ [f]).length = pfx.length + 1 := by simp
    have hassoc : (pfx ++ [f]) ++ rest = pfx ++ f :: rest := by simp
    have hcond := stopCondB_at_append pfx rest f
    cases hsp : f.speech with
    | true =>
      have hrun := curRunStart_snoc_speech pfx f hsp
      have := ih (pfx ++ [f])
      rw [hlen, hassoc, hrun] at this
      have hstop : stopCondB (pfx ++ f :: rest) pfx.length = false := by
        rw [hcond]; cases curRunStart pfx <;> simp [hsp]
      cases hcr : curRunStart pfx with
      | none =>
        simp only [recLoopAux, hsp, if_true, specStopFromFuel, hstop, Bool.false_eq_true,
          if_false]
        exact this
      | some s =>
        simp only [recLoopAux, hsp, if_true, specStopFromFuel, hstop, Bool.false_eq_true,
          if_false]
        exact this
    | false =>
      cases hcr : curRunStart pfx with
      | none =>
        have hrun := curRunStart_snoc_silence_none pfx f hsp hcr
        have := ih (pfx ++ [f])
        rw [hlen, hassoc, hrun] at this
        have hstop : stopCondB (pfx ++ f :: rest) pfx.length = false := by
          rw [hcond, hcr]
        simp only [recLoopAux, hsp, Bool.false_eq_true, if_false, specStopFromFuel, hstop]
        exact this
      | some s =>
        by_cases hlim : silence_duration_limit < f.t - s
        · have hstop : stopCondB (pfx ++ f :: rest) pfx.length = true := by
            rw [hcond, hcr]; simp [hsp, hlim]
          simp only [recLoopAux, hsp, Bool.false_eq_true, if_false, specStopFromFuel, hstop,
            if_true, hlim]
        · have hrun := curRunStart_snoc_silence_some pfx f s hsp hcr
          have := ih (pfx ++ [f])
          rw [hlen, hassoc, hrun] at this
          have hstop : stopCondB (pfx ++ f :: rest) pfx.length = false := by
            rw [hcond, hcr]; simp [hlim]
          simp only [recLoopAux, hsp, Bool.false_eq_true, if_false, specStopFromFuel, hstop,
            hlim]
          exact this

/-! ### Speaker diarization merge (src/code/main.py, lines 86-121)

The diarization pipeline yields `(turn, _, speaker)` triples.  The merge
loop walks them in order, computes an embedding for the first turn of each
yet-unseen speaker label and either merges the label into an existing
canonical label (first stored embedding with cosine similarity at least
`MERGE_THRESHOLD`) or assigns a fresh `speakerN` name.  Python dicts keep
insertion order, so `speaker_embeddings` and `merged_mapping` are modelled
as association lists where assignment updates in place or appends. -/

/-- Model of one diarization turn together with its speaker label, as
produced by `diarization.itertracks(yield_label=True)`. -/
structure DiarTurn where
  tstart : ℚ
  tend : ℚ
  speaker : String
deriving DecidableEq, Repr

/-- Lookup in an insertion-ordered association list, modelling Python dict
indexing. -/
def alookup {α : Type} : List (String × α) → String → Option α
  | [], _ => none
  | p :: rest, k => if p.1 = k then some p.2 else alookup rest k

/-- Assignment in an insertion-ordered association list, modelling Python
dict assignment: an existing key is updated in place, a new key is appended
at the end. -/
def aset {α : Type} : List (String × α) → String → α → List (String × α)
  | [], k, v => [(k, v)]
  | p :: rest, k, v => if p.1 = k then (k, v) :: rest else p :: aset rest k v

/-- Constant `MERGE_THRESHOLD = 0.88` from src/code/main.py line 94, as the
reduced rational 22/25. -/
def MERGE_THRESHOLD : ℚ := ⟨22, 25, by decide, by decide⟩

lemma MERGE_THRESHOLD_eq : MERGE_THRESHOLD = 88 / 100 := by
  rw [MERGE_THRESHOLD, Rat.mk'_eq_divInt]
  norm_num [Rat.divInt_eq_div]

/-- Canonical merged label `f"speaker{speaker_counter}"`. -/
def speakerName (n : ℕ) : String := "speaker" ++ toString n

/-- State of the merge loop: the dicts `speaker_embeddings` and
`merged_mapping` plus `speaker_counter`. -/
structure MergeState (Emb : Type) where
  speakerEmbeddings : List (String × Emb)
  mergedMapping : List (String × String)
  speakerCounter : ℕ
deriving Repr

/-- Embedding of one iteration of the merge loop (src/code/main.py lines
96-115).  `sim` models `cosine_similarity` and `e` the embedding computed
from the turn's audio; a speaker already present in `speaker_embeddings` is
skipped by the `continue`. -/
def mergeStep {Emb : Type} (sim : Emb → Emb → ℚ) (st : MergeState Emb)
    (t : DiarTurn) (e : Emb) : MergeState Emb :=
  if (alookup st.speakerEmbeddings t.speaker).isSome then st
  else
    match st.speakerEmbeddings.find? (fun p => decide (MERGE_THRESHOLD ≤ sim e p.2)) with
    | some q =>
      { st with
          mergedMapping :=
            aset st.mergedMapping t.speaker ((alookup st.mergedMapping q.1).getD "KeyError") }
    | none =>
      { speakerEmbeddings := st.speakerEmbeddings ++ [(t.speaker, e)]
        mergedMapping := aset st.mergedMapping t.speaker (speakerName st.speakerCounter)
        speakerCounter := st.speakerCounter + 1 }

/-- Whole merge loop over the diarization turns, starting from empty dicts
and `speaker_counter = 1`; `embOf` models the external embedding model
applied to the audio cropped to a turn. -/
def mergeLoop {Emb : Type} (sim : Emb → Emb → ℚ) (embOf : DiarTurn → Emb)
    (turns : List DiarTurn) : MergeState Emb :=
  turns.foldl (fun st t => mergeStep sim st t (embOf t)) ⟨[], [], 1⟩

/-- Model of one entry of `speaker_segments` (src/code/main.py lines
118-121): a diarization turn relabelled through `merged_mapping`. -/
structure SpeakerSeg where
  sstart : ℚ
  send : ℚ
  speaker : String
deriving DecidableEq, Repr

/-- Embedding of the `speaker_segments` list comprehension; the Python
`merged_mapping[speaker]` raises on a missing key, modelled by a sentinel
default that claim C8 shows is never used. -/
def speakerSegments (m : List (String × String)) (turns : List DiarTurn) : List SpeakerSeg :=
  turns.map (fun t => ⟨t.tstart, t.tend, (alookup m t.speaker).getD "KeyError"⟩)

lemma alookup_mem {α : Type} (m : List (String × α)) (k : String) (v : α)
    (h : alookup m k = some v) : (k, v) ∈ m := by
  induction m with
  | nil => simp [alookup] at h
  | cons p rest ih =>
    rcases p with ⟨a, b⟩
    by_cases hk : a = k
    · simp only [alookup, hk, if_true, Option.some.injEq] at h
      subst hk; subst h; exact List.mem_cons_self _ _
    · simp only [alookup, hk, if_false] at h
      exact List.mem_cons_of_mem _ (ih h)

lemma alookup_aset_self {α : Type} (m : List (String × α)) (k : String) (v : α) :
    alookup (aset m k v) k = some v := by
  induction m with
  | nil => simp [aset, alookup]
  | cons p rest ih =>
    by_cases hk : p.1 = k
    · simp [aset, alookup, hk]
    · simp [aset, alookup, hk, ih]

lemma alookup_aset_ne {α : Type} (m : List (String × α)) (k k' : String) (v : α)
    (h : k' ≠ k) : alookup (aset m k v) k' = alookup m k' := by
  have hkk : ¬ k = k' := fun hh => h hh.symm
  induction m with
  | nil => simp [aset, alookup, hkk]
  | cons p rest ih =>
    by_cases hk : p.1 = k
    · have hpk : ¬ p.1 = k' := by rw [hk]; exact hkk
      simp [aset, alookup, hk, hkk, hpk]
    · simp [aset, alookup, hk, ih]

lemma alookup_aset_isSome {α : Type} (m : List (String × α)) (k k' : String) (v : α)
    (h : (alookup m k').isSome) : (alookup (aset m k v) k').isSome := by
  by_cases hk : k' = k
  · subst hk; simp [alookup_aset_self]
  · rwa [alookup_aset_ne m k k' v hk]

lemma mem_aset {α : Type} (m : List (String × α)) (k : String) (v : α) (p : String × α)
    (h : p ∈ aset m k v) : p = (k, v) ∨ p ∈ m := by
  induction m with
  | nil => simp [aset] at h; simp [h]
  | cons q rest ih =>
    by_cases hk : q.1 = k
    · simp only [aset, hk, if_true] at h
      rcases List.mem_cons.mp h with h1 | h1
      · exact Or.inl h1
      · exact Or.inr (List.mem_cons_of_mem _ h1)
    · simp only [aset, hk, if_false] at h
      rcases List.mem_cons.mp h with h1 | h1
      · exact Or.inr (h1 ▸ List.mem_cons_self _ _)
      · rcases ih h1 with h2 | h2
        · exact Or.inl h2
        · exact Or.inr (List.mem_cons_of_mem _ h2)

/-- Invariant of the merge loop: every value of `merged_mapping` is a
canonical `speakerN` label, and every speaker stored in
`speaker_embeddings` already has an entry in `merged_mapping`. -/
def goodState {Emb : Type} (st : MergeState Emb) : Prop :=
  (∀ p ∈ st.mergedMapping, ∃ n, p.2 = speakerName n) ∧
  (∀ q ∈ st.speakerEmbeddings, (alookup st.mergedMapping q.1).isSome)

lemma goodState_init {Emb : Type} : goodState (⟨[], [], 1⟩ : MergeState Emb) := by
  constructor <;> intro p hp <;> simp at hp

lemma mergeStep_good {Emb : Type} (sim : Emb → Emb → ℚ) (st : MergeState Emb)
    (t : DiarTurn) (e : Emb) (h : goodState st) : goodState (mergeStep sim st t e) := by
  rcases h with ⟨hmap, hemb⟩
  unfold mergeStep
  by_cases hskip : (alookup st.speakerEmbeddings t.speaker).isSome
  · simpa [hskip] using ⟨hmap, hemb⟩
  · simp only [hskip, if_false]
    cases hfind : st.speakerEmbeddings.find? (fun p => decide (MERGE_THRESHOLD ≤ sim e p.2)) with
    | some q =>
      have hqmem : q ∈ st.speakerEmbeddings := List.mem_of_find?_eq_some hfind
      have hlk : (alookup st.mergedMapping q.1).isSome := hemb q hqmem
      rcases Option.isSome_iff_exists.mp hlk with ⟨w, hw⟩
      have hwform : ∃ n, w = speakerName n := hmap (q.1, w) (alookup_mem _ _ _ hw)
      refine ⟨?_, ?_⟩
      · intro p hp
        rcases mem_aset _ _ _ _ hp with h1 | h1
        · subst h1; simpa [hw] using hwform
        · exact hmap p h1
      · intro q' hq'
        exact alookup_aset_isSome _ _ _ _ (hemb q' hq')
    | none =>
      refine ⟨?_, ?_⟩
      · intro p hp
        rcases mem_aset _ _ _ _ hp with h1 | h1
        · subst h1; exact ⟨st.speakerCounter, rfl⟩
        · exact hmap p h1
      · intro q' hq'
        rcases List.mem_append.mp hq' with h1 | h1
        · exact alookup_aset_isSome _ _ _ _ (hemb q' h1)
        · simp only [List.mem_singleton] at h1
          subst h1
          simp [alookup_aset_self]

lemma mergeStep_preserves_key {Emb : Type} (sim : Emb → Emb → ℚ) (st : MergeState Emb)
    (t : DiarTurn) (e : Emb) (k : String) (h : (alookup st.mergedMapping k).isSome) :
    (alookup (mergeStep sim st t e).mergedMapping k).isSome := by
  unfold mergeStep
  by_cases hskip : (alookup st.speakerEmbeddings t.speaker).isSome
  · simpa [hskip] using h
  · simp only [hskip, if_false]
    cases hfind : st.speakerEmbeddings.find? (fun p => decide (MERGE_THRESHOLD ≤ sim e p.2)) with
    | some q => exact alookup_aset_isSome _ _ _ _ h
    | none => exact alookup_aset_isSome _ _ _ _ h

lemma mergeFold_preserves_key {Emb : Type} (sim : Emb → Emb → ℚ) (embOf : DiarTurn → Emb)
    (turns : List DiarTurn) :
    ∀ (st : MergeState Emb) (k : String), (alookup st.mergedMapping k).isSome →
      (alookup (turns.foldl (fun st t => mergeStep sim st t (embOf t)) st).mergedMapping k).isSome := by
  induction turns with
  | nil => intro st k h; exact h
  | cons t rest ih =>
    intro st k h
    exact ih _ k (mergeStep_preserves_key sim st t (embOf t) k h)

lemma mergeStep_assigns {Emb : Type} (sim : Emb → Emb → ℚ) (st : MergeState Emb)
    (t : DiarTurn) (e : Emb) (h : goodState st) :
    (alookup (mergeStep sim st t e).mergedMapping t.speaker).isSome := by
  unfold mergeStep
  by_cases hskip : (alookup st.speakerEmbeddings t.speaker).isSome
  · rcases Option.isSome_iff_exists.mp hskip with ⟨e', he'⟩
    simpa [hskip] using h.2 (t.speaker, e') (alookup_mem _ _ _ he')
  · simp only [hskip, if_false]
    cases hfind : st.speakerEmbeddings.find? (fun p => decide (MERGE_THRESHOLD ≤ sim e p.2)) with
    | some q => simp [alookup_aset_self]
    | none => simp [alookup_aset_self]

lemma mergeFold_good {Emb : Type} (sim : Emb → Emb → ℚ) (embOf : DiarTurn → Emb)
    (turns : List DiarTurn) :
    ∀ st : MergeState Emb, goodState st →
      goodState (turns.foldl (fun st t => mergeStep sim st t (embOf t)) st) ∧
      ∀ t ∈ turns,
        (alookup (turns.foldl (fun st t => mergeStep sim st t (embOf t)) st).mergedMapping
          t.speaker).isSome := by
  induction turns with
  | nil =>
    intro st h
    exact ⟨h, by intro t ht; simp at ht⟩
  | cons t rest ih =>
    intro st h
    have hstep := mergeStep_good sim st t (embOf t) h
    refine ⟨(ih _ hstep).1, ?_⟩
    intro u hu
    rcases List.mem_cons.mp hu with h1 | h1
    · subst h1
      exact mergeFold_preserves_key sim embOf rest _ _ (mergeStep_assigns sim st u (embOf u) h)
    · exact (ih _ hstep).2 u h1

/-- Claim C8: after the merge loop every diarization speaker label has an
entry in `merged_mapping` whose value is a canonical `speakerN` label, so
the `speaker_segments` construction never meets a missing key: every label
it produces is a canonical `speakerN` label (never the `KeyError`
sentinel). -/
theorem merged_mapping_total {Emb : Type} (sim : Emb → Emb → ℚ) (embOf : DiarTurn → Emb)
    (turns : List DiarTurn) :
    (∀ sp ∈ turns.map DiarTurn.speaker,
      ∃ n, alookup (mergeLoop sim embOf turns).mergedMapping sp = some (speakerName n)) ∧
    (∀ s ∈ speakerSegments (mergeLoop sim embOf turns).mergedMapping turns,
      ∃ n, s.speaker = speakerName n) := by
  have hmain := mergeFold_good sim embOf turns ⟨[], [], 1⟩ goodState_init
  rw [show List.foldl (fun st t => mergeStep sim st t (embOf t)) ⟨[], [], 1⟩ turns
      = mergeLoop sim embOf turns from rfl] at hmain
  have hkey : ∀ sp ∈ turns.map DiarTurn.speaker,
      ∃ n, alookup (mergeLoop sim embOf turns).mergedMapping sp = some (speakerName n) := by
    intro sp hsp
    rcases List.mem_map.mp hsp with ⟨t, ht, hts⟩
    have hs := hmain.2 t ht
    rcases Option.isSome_iff_exists.mp hs with ⟨w, hw⟩
    have hform := hmain.1.1 (t.speaker, w) (alookup_mem _ _ _ hw)
    rcases hform with ⟨n, hn⟩
    exact ⟨n, by rw [← hts, hw]; exact congrArg some hn⟩
  refine ⟨hkey, ?_⟩
  intro s hs
  rcases List.mem_map.mp hs with ⟨t, ht, hts⟩
  rcases hkey t.speaker (List.mem_map_of_mem _ ht) with ⟨n, hn⟩
  refine ⟨n, ?_⟩
  rw [← hts]
  show (alookup (mergeLoop sim embOf turns).mergedMapping t.speaker).getD "KeyError"
      = speakerName n
  rw [hn]
  rfl

lemma find?_first {α : Type} (p : α → Bool) (pre post : List α) (q : α)
    (hpre : ∀ x ∈ pre, p x = false) (hq : p q = true) :
    (pre ++ q :: post).find? p = some q := by
  induction pre with
  | nil =>
    rw [List.nil_append]
    exact List.find?_cons_of_pos _ hq
  | cons a rest ih =>
    have ha := hpre a (List.mem_cons_self _ _)
    rw [List.cons_append, List.find?_cons_of_neg _ (by simp [ha])]
    exact ih (fun x hx => hpre x (List.mem_cons_of_mem _ hx))

lemma mergeStep_matched {Emb : Type} (sim : Emb → Emb → ℚ) (st : MergeState Emb)
    (t : DiarTurn) (e : Emb) (q : String × Emb)
    (hskip : alookup st.speakerEmbeddings t.speaker = none)
    (hfind : st.speakerEmbeddings.find? (fun p => decide (MERGE_THRESHOLD ≤ sim e p.2)) = some q) :
    mergeStep sim st t e =
      { st with
          mergedMapping :=
            aset st.mergedMapping t.speaker
              ((alookup st.mergedMapping q.1).getD "KeyError") } := by
  unfold mergeStep
  rw [hskip]
  simp [hfind]

lemma mergeStep_unmatched {Emb : Type} (sim : Emb → Emb → ℚ) (st : MergeState Emb)
    (t : DiarTurn) (e : Emb)
    (hskip : alookup st.speakerEmbeddings t.speaker = none)
    (hfind : st.speakerEmbeddings.find? (fun p => decide (MERGE_THRESHOLD ≤ sim e p.2)) = none) :
    mergeStep sim st t e =
      { speakerEmbeddings := st.speakerEmbeddings ++ [(t.speaker, e)]
        mergedMapping := aset st.mergedMapping t.speaker (speakerName st.speakerCounter)
        speakerCounter := st.speakerCounter + 1 } := by
  unfold mergeStep
  rw [hskip]
  simp [hfind]

/-- Claim C2: the merge loop is greedy in turn order.  When the next turn's
label is not yet among the kept embeddings, it is merged into the canonical
label of the first kept speaker whose stored embedding reaches cosine
similarity `MERGE_THRESHOLD` with the new embedding (kept set and counter
unchanged); if no kept embedding reaches the threshold the label gets the
fresh canonical name `speakerN` for the current counter `N`, its embedding
is appended to the kept set, and the counter increases by 1. -/
theorem speaker_merge_greedy {Emb : Type} (sim : Emb → Emb → ℚ) (embOf : DiarTurn → Emb)
    (pfx : List DiarTurn) (t : DiarTurn)
    (hnew : alookup (mergeLoop sim embOf pfx).speakerEmbeddings t.speaker = none) :
    (∀ pre q post,
        (mergeLoop sim embOf pfx).speakerEmbeddings = pre ++ q :: post →
        (∀ x ∈ pre, sim (embOf t) x.2 < MERGE_THRESHOLD) →
        MERGE_THRESHOLD ≤ sim (embOf t) q.2 →
        alookup (mergeLoop sim embOf (pfx ++ [t])).mergedMapping t.speaker
            = alookup (mergeLoop sim embOf pfx).mergedMapping q.1 ∧
        (mergeLoop sim embOf (pfx ++ [t])).speakerEmbeddings
            = (mergeLoop sim embOf pfx).speakerEmbeddings ∧
        (mergeLoop sim embOf (pfx ++ [t])).speakerCounter
            = (mergeLoop sim embOf pfx).speakerCounter) ∧
    ((∀ x ∈ (mergeLoop sim embOf pfx).speakerEmbeddings,
          sim (embOf t) x.2 < MERGE_THRESHOLD) →
        alookup (mergeLoop sim embOf (pfx ++ [t])).mergedMapping t.speaker
            = some (speakerName (mergeLoop sim embOf pfx).speakerCounter) ∧
        (mergeLoop sim embOf (pfx ++ [t])).speakerEmbeddings
            = (mergeLoop sim embOf pfx).speakerEmbeddings ++ [(t.speaker, embOf t)] ∧
        (mergeLoop sim embOf (pfx ++ [t])).speakerCounter
            = (mergeLoop sim embOf pfx).speakerCounter + 1) := by
  have hsnoc : mergeLoop sim embOf (pfx ++ [t])
      = mergeStep sim (mergeLoop sim embOf pfx) t (embOf t) := by
    simp [mergeLoop, List.foldl_append]
  have hgood : goodState (mergeLoop sim embOf pfx) :=
    (mergeFold_good sim embOf pfx ⟨[], [], 1⟩ goodState_init).1
  constructor
  · intro pre q post hdec hfail hpass
    have hfind : (mergeLoop sim embOf pfx).speakerEmbeddings.find?
        (fun p => decide (MERGE_THRESHOLD ≤ sim (embOf t) p.2)) = some q := by
      rw [hdec]
      exact find?_first _ pre post q
        (fun x hx => decide_eq_false (not_le.mpr (hfail x hx)))
        (decide_eq_true hpass)
    have hq : q ∈ (mergeLoop sim embOf pfx).speakerEmbeddings := by
      rw [hdec]
      exact List.mem_append_right _ (List.mem_cons_self _ _)
    rcases Option.isSome_iff_exists.mp (hgood.2 q hq) with ⟨w, hw⟩
    rw [hsnoc, mergeStep_matched sim _ t (embOf t) q hnew hfind]
    refine ⟨?_, rfl, rfl⟩
    show alookup (aset (mergeLoop sim embOf pfx).mergedMapping t.speaker
        ((alookup (mergeLoop sim embOf pfx).mergedMapping q.1).getD "KeyError")) t.speaker
        = alookup (mergeLoop sim embOf pfx).mergedMapping q.1
    rw [alookup_aset_self, hw]
    rfl
  · intro hfail
    have hfind : (mergeLoop sim embOf pfx).speakerEmbeddings.find?
        (fun p => decide (MERGE_THRESHOLD ≤ sim (embOf t) p.2)) = none := by
      rw [List.find?_eq_none]
      intro x hx
      simp only [decide_eq_true_eq]
      exact not_le.mpr (hfail x hx)
    rw [hsnoc, mergeStep_unmatched sim _ t (embOf t) hnew hfind]
    exact ⟨alookup_aset_self _ _ _, rfl, rfl⟩

/-- Concrete similarity function used to exercise the merge loop: two
embeddings are similar exactly when equal. -/
def simEx : ℚ → ℚ → ℚ := fun a b => if a = b then 1 else 0

/-- Concrete embedding model used to exercise the merge loop: the turn's
start time stands in for its voice embedding. -/
def embEx : DiarTurn → ℚ := DiarTurn.tstart

def turnA : DiarTurn := ⟨0, 1, "SPEAKER_00"⟩

def turnB : DiarTurn := ⟨2, 3, "SPEAKER_01"⟩

def turnC : DiarTurn := ⟨2, 4, "SPEAKER_02"⟩

/-- Witness for claim C2 at a concrete run: the third diarization label has
the same embedding as the second and is merged into its canonical label
`speaker2`. -/
theorem speaker_merge_greedy_witness :
    alookup (mergeLoop simEx embEx ([turnA, turnB] ++ [turnC])).mergedMapping "SPEAKER_02"
      = some "speaker2" := by
  have h := (speaker_merge_greedy simEx embEx [turnA, turnB] turnC (by decide)).1
      [("SPEAKER_00", (0:ℚ))] ("SPEAKER_01", (2:ℚ)) [] (by decide) (by decide) (by decide)
  rw [show turnC.speaker = "SPEAKER_02" from rfl] at h
  rw [h.1]
  decide

/-- Witness for claim C8 at a concrete run: the first diarization label has
a canonical entry in the final `merged_mapping`. -/
theorem merged_mapping_total_witness :
    ∃ n, alookup (mergeLoop simEx embEx [turnA, turnB, turnC]).mergedMapping "SPEAKER_00"
      = some (speakerName n) :=
  (merged_mapping_total simEx embEx [turnA, turnB, turnC]).1 "SPEAKER_00" (by decide)

/-! ### Alignment of transcript to speakers (src/code/main.py, lines 123-181)

For each transcript segment (and each of its words) the code scans
`speaker_segments` in order, assigning the first turn whose closed time
interval intersects the segment's (`not (seg_end < s.start or
seg_start > s.end)`), defaulting to `"Unknown"`. -/

/-- Model of one word of a transcript segment as produced by the
transcription model (`segment.words`). -/
structure TWord where
  word : String
  wstart : ℚ
  wend : ℚ
deriving DecidableEq, Repr

/-- Model of one transcript segment produced by `model.transcribe`. -/
structure TSeg where
  tstart : ℚ
  tend : ℚ
  text : String
  words : List TWord
deriving DecidableEq, Repr

/-- Interval-overlap test of src/code/main.py lines 129 and 167: the closed
intervals `[a, b]` and `[s.sstart, s.send]` intersect. -/
def overlaps (a b : ℚ) (s : SpeakerSeg) : Prop := ¬ (b < s.sstart ∨ a > s.send)

instance (a b : ℚ) (s : SpeakerSeg) : Decidable (overlaps a b s) := by
  unfold overlaps
  infer_instance

/-- Embedding of the inner assignment scan: first overlapping speaker
segment's label, else `"Unknown"`. -/
def assignSpeaker (a b : ℚ) (ss : List SpeakerSeg) : String :=
  match ss.find? (fun s => decide (overlaps a b s)) with
  | some s => s.speaker
  | none => "Unknown"

/-- Model of one entry of `final_output`. -/
structure OutSeg where
  speaker : String
  ostart : ℚ
  oend : ℚ
  text : String
deriving DecidableEq, Repr

/-- Whitespace characters removed by Python `str.strip()`. -/
def isSpaceChar (c : Char) : Bool :=
  c == ' ' || c == '\t' || c == '\n' || c == '\r' || c == '\x0b' || c == '\x0c'

/-- Model of Python `str.strip()`: drop leading and trailing whitespace. -/
def pyStrip (s : String) : String :=
  ⟨((s.data.dropWhile isSpaceChar).reverse.dropWhile isSpaceChar).reverse⟩

/-- Embedding of the `final_output` construction loop (lines 124-137). -/
def finalOutput (ts : List TSeg) (ss : List SpeakerSeg) : List OutSeg :=
  ts.map (fun seg =>
    ⟨assignSpeaker seg.tstart seg.tend ss, seg.tstart, seg.tend, pyStrip seg.text⟩)

/-- Model of one entry of `word_level_data`. -/
structure OutWord where
  word : String
  wstart : ℚ
  wend : ℚ
  speaker : String
deriving DecidableEq, Repr

/-- Embedding of the `word_level_data` construction loop (lines 160-175);
segments whose `words` list is empty contribute nothing, as in the Python
`if getattr(segment, "words", None):` guard. -/
def wordLevelData (ts : List TSeg) (ss : List SpeakerSeg) : List OutWord :=
  (ts.map (fun seg =>
    seg.words.map (fun w => ⟨w.word, w.wstart, w.wend, assignSpeaker w.wstart w.wend ss⟩))).flatten

lemma assignSpeaker_spec (a b : ℚ) (ss : List SpeakerSeg) :
    (∃ s ∈ ss, overlaps a b s ∧ assignSpeaker a b ss = s.speaker) ∨
    ((∀ s ∈ ss, ¬ overlaps a b s) ∧ assignSpeaker a b ss = "Unknown") := by
  cases hfind : ss.find? (fun s => decide (overlaps a b s)) with
  | none =>
    refine Or.inr ⟨?_, by rw [assignSpeaker, hfind]⟩
    intro s hs
    have := List.find?_eq_none.mp hfind s hs
    simpa using this
  | some s =>
    refine Or.inl ⟨s, List.mem_of_find?_eq_some hfind, ?_, by rw [assignSpeaker, hfind]⟩
    have := List.find?_some hfind
    simpa using this

/-- Claim C1: every entry of `final_output` and of `word_level_data` either
carries the merged label of some diarization turn whose closed time
interval intersects its own (with endpoints inclusive), or overlaps no turn
and carries the label `"Unknown"`. -/
theorem alignment_overlap_or_unknown (ts : List TSeg) (ss : List SpeakerSeg) :
    (∀ o ∈ finalOutput ts ss,
      (∃ s ∈ ss, overlaps o.ostart o.oend s ∧ o.speaker = s.speaker) ∨
      ((∀ s ∈ ss, ¬ overlaps o.ostart o.oend s) ∧ o.speaker = "Unknown")) ∧
    (∀ w ∈ wordLevelData ts ss,
      (∃ s ∈ ss, overlaps w.wstart w.wend s ∧ w.speaker = s.speaker) ∨
      ((∀ s ∈ ss, ¬ overlaps w.wstart w.wend s) ∧ w.speaker = "Unknown")) := by
  constructor
  · intro o ho
    rcases List.mem_map.mp ho with ⟨seg, _, hseg⟩
    rw [← hseg]
    exact assignSpeaker_spec seg.tstart seg.tend ss
  · intro w hw
    rcases List.mem_flatten.mp hw with ⟨inner, hinner, hwinner⟩
    rcases List.mem_map.mp hinner with ⟨seg, _, hseg⟩
    rw [← hseg] at hwinner
    rcases List.mem_map.mp hwinner with ⟨tw, _, htw⟩
    rw [← htw]
    exact assignSpeaker_spec tw.wstart tw.wend ss

/-- Witness for claim C1 at a concrete run: the single transcript segment
overlapping the single turn receives its label. -/
theorem alignment_overlap_or_unknown_witness :
    (∃ s ∈ [(⟨0, 5, "speaker1"⟩ : SpeakerSeg)],
      overlaps 1 2 s ∧ "speaker1" = s.speaker) ∨
    ((∀ s ∈ [(⟨0, 5, "speaker1"⟩ : SpeakerSeg)], ¬ overlaps 1 2 s) ∧
      "speaker1" = "Unknown") := by
  have h := (alignment_overlap_or_unknown [⟨1, 2, "hi", []⟩] [⟨0, 5, "speaker1"⟩]).1
      ⟨"speaker1", 1, 2, "hi"⟩ (by decide)
  exact h

/-- Non-overlap of two output segments' closed time intervals. -/
def timeDisjoint (a b : OutSeg) : Prop := a.oend ≤ b.ostart ∨ b.oend ≤ a.ostart

instance (a b : OutSeg) : Decidable (timeDisjoint a b) := by
  unfold timeDisjoint
  infer_instance

/-- Counterexample to claim C4: `final_output` copies the transcript
segments' time intervals verbatim, so two overlapping transcript segments
produce two output segments that overlap in time — the produced segments do
not partition the time axis. -/
theorem final_output_not_partition :
    ¬ List.Pairwise timeDisjoint
        (finalOutput [⟨0, 2, "a", []⟩, ⟨1, 3, "b", []⟩] [⟨0, 5, "speaker1"⟩]) := by
  decide

/-- Claim C4, amended: the output segments inherit exactly the transcript
segments' time intervals, one output segment per transcript segment in
order; hence they partition the recording's time axis only when the
transcript segments already do, and their boundaries come from the
transcription model, not from speaker-turn changes. -/
theorem final_output_inherits_transcript_intervals (ts : List TSeg) (ss : List SpeakerSeg) :
    (finalOutput ts ss).map (fun o => (o.ostart, o.oend))
      = ts.map (fun s => (s.tstart, s.tend)) := by
  simp [finalOutput, List.map_map]

/-! ### Persistence of the meeting index (src/code/main.py, lines 184-205)

The run builds a `meeting_entry` dict with exactly six fields, loads the
existing `meetings.json` list when the file exists (an empty list
otherwise), appends the entry and writes the result back. -/

/-- Model of the `meeting_entry` dict, fields in the order the source
constructs them; the id is the externally generated UUID string. -/
def mkMeetingEntry (id name audio transcript words created : String) :
    List (String × String) :=
  [("id", id), ("name", name), ("audio", audio), ("transcript", transcript),
   ("words", words), ("created", created)]

/-- Embedding of the meetings.json read-append-write (lines 195-205):
`prior` is the parsed contents of the index when the file exists, `none`
when it does not. -/
def saveMeetings (prior : Option (List (List (String × String))))
    (entry : List (String × String)) : List (List (String × String)) :=
  prior.getD [] ++ [entry]

/-- Claim C5: a pipeline run leaves every existing meetings.json record
unchanged and in its original order, appends exactly one record at the end
whose fields are precisely id, name, audio, transcript, words and created,
and creates the index with only the new record when no file existed. -/
theorem meetings_append_frame (prior : List (List (String × String)))
    (id name audio transcript words created : String) :
    (saveMeetings (some prior)
        (mkMeetingEntry id name audio transcript words created)).take prior.length
      = prior ∧
    (saveMeetings (some prior)
        (mkMeetingEntry id name audio transcript words created)).length
      = prior.length + 1 ∧
    (saveMeetings (some prior)
        (mkMeetingEntry id name audio transcript words created)).getLast?
      = some (mkMeetingEntry id name audio transcript words created) ∧
    saveMeetings none (mkMeetingEntry id name audio transcript words created)
      = [mkMeetingEntry id name audio transcript words created] ∧
    (mkMeetingEntry id name audio transcript words created).map Prod.fst
      = ["id", "name", "audio", "transcript", "words", "created"] := by
  refine ⟨?_, ?_, ?_, rfl, rfl⟩
  · exact List.take_left prior _
  · simp [saveMeetings]
  · simp [saveMeetings]

/-! ### Dashboard word grouping (src/code/new_UI.py, lines 161-192)

CASE A of `build_diarized_segments`: a `<base>_words.json` file holds a
list of word records; after normalization (`start`/`end` floats or None,
missing speaker defaulted to `"Unknown"`) contiguous words with the same
speaker are grouped into segments. -/

/-- Model of one normalized word record of a words JSON file. -/
structure JWord where
  word : String
  wstart : Option ℚ
  wend : Option ℚ
  speaker : String
deriving DecidableEq, Repr

/-- Model of one segment returned by `build_diarized_segments`. -/
structure JSeg where
  speaker : String
  sstart : Option ℚ
  send : Option ℚ
  text : String
  words : List JWord
deriving DecidableEq, Repr

/-- Emission of one grouped segment: `seg_start = cur_words[0]["start"]`,
`seg_end = cur_words[-1].get("end", cur_words[-1]["start"])` (the `.get`
default applies when the record carries no end time), and the text is the
space-join of the words. -/
def emitSeg (sp : String) (ws : List JWord) : JSeg :=
  { speaker := sp
    sstart := match ws with
      | [] => none
      | w :: _ => w.wstart
    send := match ws.getLast? with
      | some w => if w.wend.isSome then w.wend else w.wstart
      | none => none
    text := String.intercalate " " (ws.map JWord.word)
    words := ws }

/-- Embedding of the word-grouping loop of `build_diarized_segments` (lines
172-190): `curSp`/`curWords` are `cur_sp`/`cur_words`, a segment is emitted
when the speaker changes and the current group is non-empty, and the final
non-empty group is emitted after the loop. -/
def groupWordsAux : String → List JWord → List JWord → List JSeg
  | curSp, curWords, [] => if curWords.isEmpty then [] else [emitSeg curSp curWords]
  | curSp, curWords, w :: rest =>
    if w.speaker ≠ curSp ∧ ¬ curWords.isEmpty then
      emitSeg curSp curWords :: groupWordsAux w.speaker [w] rest
    else
      groupWordsAux curSp (curWords ++ [w]) rest
  termination_by structural _ _ l => l

/-- Whole grouping pass: `cur_sp` starts as the first word's speaker and
`cur_words` empty; the branch is only entered on a non-empty list. -/
def groupWords : List JWord → List JSeg
  | [] => []
  | w :: rest => groupWordsAux w.speaker [] (w :: rest)

/-- Comparison used to state time-ordering of word records: whenever both
records carry a start time, the first is at most the second. -/
def wordLE (a b : JWord) : Bool :=
  match a.wstart, b.wstart with
  | some x, some y => decide (x ≤ y)
  | _, _ => true

lemma groupWordsAux_nil_eq (curSp : String) (curWords : List JWord) :
    groupWordsAux curSp curWords []
      = if curWords.isEmpty then [] else [emitSeg curSp curWords] := rfl

lemma groupWordsAux_cons_eq (curSp : String) (curWords : List JWord) (w : JWord)
    (rest : List JWord) :
    groupWordsAux curSp curWords (w :: rest)
      = if w.speaker ≠ curSp ∧ ¬ curWords.isEmpty then
          emitSeg curSp curWords :: groupWordsAux w.speaker [w] rest
        else groupWordsAux curSp (curWords ++ [w]) rest := rfl

lemma groupWordsAux_flatten (rest : List JWord) :
    ∀ (curSp : String) (curWords : List JWord),
      ((groupWordsAux curSp curWords rest).map JSeg.words).flatten = curWords ++ rest := by
  induction rest with
  | nil =>
    intro curSp curWords
    rw [groupWordsAux_nil_eq]
    cases curWords with
    | nil => rfl
    | cons a l => simp [emitSeg]
  | cons w rest ih =>
    intro curSp curWords
    rw [groupWordsAux_cons_eq]
    by_cases hbr : w.speaker ≠ curSp ∧ ¬ curWords.isEmpty
    · rw [if_pos hbr]
      simp only [List.map_cons, List.flatten_cons, ih]
      simp [emitSeg]
    · rw [if_neg hbr, ih]
      simp

lemma groupWordsAux_text (rest : List JWord) :
    ∀ (curSp : String) (curWords : List JWord),
      ∀ s ∈ groupWordsAux curSp curWords rest,
        s.text = String.intercalate " " (s.words.map JWord.word) := by
  induction rest with
  | nil =>
    intro curSp curWords s hs
    rw [groupWordsAux_nil_eq] at hs
    by_cases hcw : curWords.isEmpty
    · rw [if_pos hcw] at hs
      simp at hs
    · rw [if_neg hcw] at hs
      rw [List.mem_singleton] at hs
      subst hs; rfl
  | cons w rest ih =>
    intro curSp curWords s hs
    rw [groupWordsAux_cons_eq] at hs
    by_cases hbr : w.speaker ≠ curSp ∧ ¬ curWords.isEmpty
    · rw [if_pos hbr, List.mem_cons] at hs
      rcases hs with hs | hs
      · subst hs; rfl
      · exact ih _ _ s hs
    · rw [if_neg hbr] at hs
      exact ih _ _ s hs

lemma groupWordsAux_head_speaker (rest : List JWord) :
    ∀ (curSp : String) (curWords : List JWord), curWords ≠ [] →
      ∀ s, (groupWordsAux curSp curWords rest).head? = some s → s.speaker = curSp := by
  induction rest with
  | nil =>
    intro curSp curWords hne s hs
    have hcw : ¬ (curWords.isEmpty = true) := by simpa using hne
    rw [groupWordsAux_nil_eq, if_neg hcw, List.head?_cons, Option.some.injEq] at hs
    rw [← hs]; rfl
  | cons w rest ih =>
    intro curSp curWords hne s hs
    rw [groupWordsAux_cons_eq] at hs
    by_cases hbr : w.speaker ≠ curSp ∧ ¬ curWords.isEmpty
    · rw [if_pos hbr, List.head?_cons, Option.some.injEq] at hs
      rw [← hs]; rfl
    · rw [if_neg hbr] at hs
      exact ih curSp (curWords ++ [w]) (by simp) s hs

lemma groupWordsAux_chain (rest : List JWord) :
    ∀ (curSp : String) (curWords : List JWord),
      List.Chain' (fun a b => a.speaker ≠ b.speaker) (groupWordsAux curSp curWords rest) := by
  induction rest with
  | nil =>
    intro curSp curWords
    rw [groupWordsAux_nil_eq]
    by_cases hcw : curWords.isEmpty
    · rw [if_pos hcw]; exact List.chain'_nil
    · rw [if_neg hcw]; exact List.chain'_singleton _
  | cons w rest ih =>
    intro curSp curWords
    rw [groupWordsAux_cons_eq]
    by_cases hbr : w.speaker ≠ curSp ∧ ¬ curWords.isEmpty
    · rw [if_pos hbr, List.chain'_cons']
      refine ⟨?_, ih _ _⟩
      intro y hy
      have hysp : y.speaker = w.speaker :=
        groupWordsAux_head_speaker rest w.speaker [w] (by simp) y hy
      show (emitSeg curSp curWords).speaker ≠ y.speaker
      rw [hysp, show (emitSeg curSp curWords).speaker = curSp from rfl]
      exact fun hh => hbr.1 hh.symm
    · rw [if_neg hbr]
      exact ih _ _

lemma groupWordsAux_speakers (rest : List JWord) :
    ∀ (curSp : String) (curWords : List JWord), curWords ≠ [] →
      (∀ w ∈ curWords, w.speaker = curSp) →
      ∀ s ∈ groupWordsAux curSp curWords rest, ∀ w ∈ s.words, w.speaker = s.speaker := by
  induction rest with
  | nil =>
    intro curSp curWords hne hall s hs w hw
    have hcw : ¬ (curWords.isEmpty = true) := by simpa using hne
    rw [groupWordsAux_nil_eq, if_neg hcw, List.mem_singleton] at hs
    subst hs
    exact hall w hw
  | cons w0 rest ih =>
    intro curSp curWords hne hall s hs w hw
    rw [groupWordsAux_cons_eq] at hs
    by_cases hbr : w0.speaker ≠ curSp ∧ ¬ curWords.isEmpty
    · rw [if_pos hbr, List.mem_cons] at hs
      rcases hs with hs | hs
      · subst hs; exact hall w hw
      · exact ih w0.speaker [w0] (by simp) (by simp) s hs w hw
    · rw [if_neg hbr] at hs
      have hw0 : w0.speaker = curSp := by
        rcases not_and_or.mp hbr with h1 | h1
        · exact not_not.mp h1
        · exact absurd (by simpa using not_not.mp h1) hne
      refine ih curSp (curWords ++ [w0]) (by simp) ?_ s hs w hw
      intro x hx
      rcases List.mem_append.mp hx with h1 | h1
      · exact hall x h1
      · rw [List.mem_singleton] at h1
        subst h1; exact hw0

lemma groupWords_cons_eq (w0 : JWord) (ws : List JWord) :
    groupWords (w0 :: ws) = groupWordsAux w0.speaker [w0] ws := by
  show groupWordsAux w0.speaker [] (w0 :: ws) = groupWordsAux w0.speaker [w0] ws
  rw [groupWordsAux_cons_eq, if_neg]
  · rfl
  · intro hh
    simp at hh

lemma groupWords_flatten (w0 : JWord) (ws : List JWord) :
    ((groupWords (w0 :: ws)).map JSeg.words).flatten = w0 :: ws := by
  rw [groupWords_cons_eq, groupWordsAux_flatten]
  rfl

/-- Claim C10: on a non-empty word list, the grouping branch of
`build_diarized_segments` partitions the input — concatenating the
segments' word lists gives back the input in order — each segment's text is
the space-join of its words' tokens, and consecutive segments carry
distinct speaker labels. -/
theorem dashboard_grouping_partitions_words (w0 : JWord) (ws : List JWord) :
    ((groupWords (w0 :: ws)).map JSeg.words).flatten = w0 :: ws ∧
    (∀ s ∈ groupWords (w0 :: ws),
      s.text = String.intercalate " " (s.words.map JWord.word)) ∧
    List.Chain' (fun a b => a.speaker ≠ b.speaker) (groupWords (w0 :: ws)) := by
  refine ⟨groupWords_flatten w0 ws, ?_, ?_⟩
  · rw [groupWords_cons_eq]
    exact groupWordsAux_text ws w0.speaker [w0]
  · rw [groupWords_cons_eq]
    exact groupWordsAux_chain ws w0.speaker [w0]

/-- Claim C6: when the word records of a served words JSON file are
time-ordered, every segment built by the dashboard has time-ordered words,
and every word in a segment carries the segment's speaker label (the label
they were assigned — possibly reassigned — by the alignment step). -/
theorem dashboard_segment_words_ordered_and_labelled (w0 : JWord) (ws : List JWord)
    (hsorted : List.Pairwise (fun a b => wordLE a b = true) (w0 :: ws)) :
    ∀ s ∈ groupWords (w0 :: ws),
      List.Pairwise (fun a b => wordLE a b = true) s.words ∧
      ∀ w ∈ s.words, w.speaker = s.speaker := by
  intro s hs
  constructor
  · have hmem : s.words ∈ (groupWords (w0 :: ws)).map JSeg.words :=
      List.mem_map_of_mem JSeg.words hs
    have hsub : s.words.Sublist (((groupWords (w0 :: ws)).map JSeg.words).flatten) :=
      List.sublist_flatten_of_mem hmem
    rw [groupWords_flatten w0 ws] at hsub
    exact hsorted.sublist hsub
  · rw [groupWords_cons_eq] at hs
    exact groupWordsAux_speakers ws w0.speaker [w0] (by simp) (by simp) s hs

/-- Witness for claim C6 at a concrete run: three time-ordered words with a
speaker change produce segments whose first segment has ordered words all
labelled with its speaker. -/
theorem dashboard_segment_words_witness :
    List.Pairwise (fun a b => wordLE a b = true)
      [(⟨"a", some 0, some 1, "s1"⟩ : JWord), ⟨"b", some 1, some 2, "s1"⟩,
        ⟨"c", some 2, some 3, "s2"⟩] ∧
    (List.Pairwise (fun a b => wordLE a b = true)
        [(⟨"a", some 0, some 1, "s1"⟩ : JWord), ⟨"b", some 1, some 2, "s1"⟩] ∧
      ∀ w ∈ [(⟨"a", some 0, some 1, "s1"⟩ : JWord), ⟨"b", some 1, some 2, "s1"⟩],
        w.speaker = "s1") := by
  refine ⟨by decide, ?_⟩
  have h := dashboard_segment_words_ordered_and_labelled
      ⟨"a", some 0, some 1, "s1"⟩ [⟨"b", some 1, some 2, "s1"⟩, ⟨"c", some 2, some 3, "s2"⟩]
      (by decide)
      ⟨"s1", some 0, some 2, String.intercalate " " ["a", "b"],
        [⟨"a", some 0, some 1, "s1"⟩, ⟨"b", some 1, some 2, "s1"⟩]⟩
      (by decide)
  exact h

/-! ### Path handling of the dashboard (src/code/new_UI.py, lines 35-38)

`safe_join` returns `None` for an empty filename, else joins the upload
folder with the basename of the filename.  POSIX `os.path.basename` is the
text after the last slash and `os.path.join` concatenates with a single
separator (keeping an absolute second argument as is); `os.path.dirname` is
the text before the last slash with trailing slashes stripped unless the
result would be all slashes. -/

/-- Model of POSIX `os.path.basename`: the characters after the last
slash. -/
def basename (p : String) : String :=
  ⟨(p.data.reverse.takeWhile (fun c => c != '/')).reverse⟩

/-- Model of POSIX `os.path.join` for two components. -/
def pathJoin (folder fn : String) : String :=
  if fn.data.head? = some '/' then fn
  else if folder = "" then fn
  else if folder.data.getLast? = some '/' then folder ++ fn
  else folder ++ "/" ++ fn

/-- Embedding of `safe_join` (src/code/new_UI.py lines 35-38). -/
def safe_join (folder fn : String) : Option String :=
  if fn = "" then none else some (pathJoin folder (basename fn))

/-- Model of POSIX `os.path.dirname`. -/
def dirname (p : String) : String :=
  let r := p.data.reverse
  let after := r.takeWhile (fun c => c != '/')
  let headRev := r.drop after.length
  if headRev = [] then ""
  else
    let stripped := headRev.dropWhile (fun c => c == '/')
    if stripped = [] then ⟨headRev.reverse⟩ else ⟨stripped.reverse⟩

lemma takeWhile_append_stop {α : Type} (p : α → Bool) (l1 l2 : List α) (x : α)
    (h1 : ∀ a ∈ l1, p a = true) (hx : p x = false) :
    (l1 ++ x :: l2).takeWhile p = l1 := by
  induction l1 with
  | nil => simp [List.takeWhile_cons, hx]
  | cons a rest ih =>
    have ha := h1 a (List.mem_cons_self _ _)
    simp [List.takeWhile_cons, ha, ih (fun b hb => h1 b (List.mem_cons_of_mem _ hb))]

lemma mem_takeWhile_pred {α : Type} (p : α → Bool) (l : List α) (x : α)
    (hx : x ∈ l.takeWhile p) : p x = true := List.mem_takeWhile_imp hx

lemma dirname_join (folder : String) (bn : List Char) (h1 : folder ≠ "")
    (h2 : folder.data.getLast? ≠ some '/') (hbn : ∀ c ∈ bn, (c != '/') = true) :
    dirname (folder ++ "/" ++ ⟨bn⟩) = folder := by
  have hfdata : folder.data ≠ [] := by
    intro hnil
    apply h1
    cases folder with
    | mk d =>
      have hd : d = [] := hnil
      subst hd
      rfl
  rcases List.exists_cons_of_ne_nil (by simpa using hfdata :
      folder.data.reverse ≠ []) with ⟨c, cs, hrev⟩
  have hc : ¬ (c = '/') := by
    intro hcc
    apply h2
    rw [← List.head?_reverse, hrev, hcc]
    rfl
  have hrev2 : (folder ++ "/" ++ (⟨bn⟩ : String)).data.reverse
      = bn.reverse ++ '/' :: folder.data.reverse := by
    simp [String.data_append]
  have hafter : (bn.reverse ++ '/' :: folder.data.reverse).takeWhile
      (fun c => c != '/') = bn.reverse :=
    takeWhile_append_stop _ _ _ _
      (fun a ha => hbn a (List.mem_reverse.mp ha)) (by simp)
  rw [dirname]
  simp only [hrev2, hafter, List.drop_left]
  rw [if_neg (by simp)]
  rw [show List.dropWhile (fun c => c == '/') ('/' :: folder.data.reverse)
      = List.dropWhile (fun c => c == '/') folder.data.reverse from
    List.dropWhile_cons_of_pos (by simp)]
  rw [hrev, List.dropWhile_cons_of_neg (by simp [hc]), ← hrev]
  rw [if_neg (by rw [hrev]; simp)]
  rw [List.reverse_reverse]

/-- Claim C9: for the dashboard's upload folder, `safe_join` maps the empty
filename to `None`, and every non-empty filename — directory components and
dot-dot segments included — to a path whose (syntactic) parent directory is
exactly the folder, the filename's directory components having been
discarded by `basename`; hence the download and open endpoints only serve
paths directly inside the upload folder. -/
theorem safe_join_confines (folder : String) (h1 : folder ≠ "")
    (h2 : folder.data.getLast? ≠ some '/') :
    safe_join folder "" = none ∧
    ∀ fn : String, fn ≠ "" → ∃ q, safe_join folder fn = some q ∧ dirname q = folder := by
  constructor
  · rw [safe_join, if_pos rfl]
  · intro fn hfn
    have hbn : ∀ c ∈ (basename fn).data, (c != '/') = true := by
      intro c hc
      have hc2 : c ∈ (fn.data.reverse.takeWhile (fun c => c != '/')) := by
        have hb : (basename fn).data
            = (fn.data.reverse.takeWhile (fun c => c != '/')).reverse := rfl
        rw [hb] at hc
        exact List.mem_reverse.mp hc
      exact mem_takeWhile_pred (fun c => c != '/') fn.data.reverse c hc2
    have hjoin : pathJoin folder (basename fn) = folder ++ "/" ++ basename fn := by
      rw [pathJoin]
      rw [if_neg ?hslash, if_neg h1, if_neg h2]
      case hslash =>
        intro hh
        have hmem : '/' ∈ (basename fn).data :=
          List.mem_of_mem_head? (by rw [hh]; rfl)
        have := hbn '/' hmem
        simp at this
    refine ⟨pathJoin folder (basename fn), ?_, ?_⟩
    · rw [safe_join, if_neg hfn]
    · rw [hjoin]
      exact dirname_join folder (basename fn).data h1 h2 hbn

/-- Witness for claim C9: for a concrete folder, the empty filename is
rejected and a traversal-laden filename lands directly inside the folder. -/
theorem safe_join_confines_witness :
    safe_join "up" "" = none ∧
    ∃ q, safe_join "up" "a/../b" = some q ∧ dirname q = "up" := by
  have h := safe_join_confines "up" (by decide) (by decide)
  exact ⟨h.1, h.2 "a/../b" (by decide)⟩

/-! ### Rename endpoint (src/code/new_UI.py, lines 565-615)

`api_rename` gathers the files of the old base (audio extensions plus
companion suffixes), refuses with 404 when none exist, refuses with 409 —
renaming nothing — when any target name already exists, and otherwise
renames every candidate.  The folder is modelled by its list of filenames;
the meetings.json rewrite only touches file contents, not names. -/

/-- The `AUDIO_EXTS` set; a Python set iterates in unspecified order,
modelled by this fixed order. -/
def AUDIO_EXTS : List String := [".wav", ".mp3", ".m4a", ".ogg", ".flac"]

/-- The companion suffixes of the `possible` list in `api_rename`. -/
def companionSuffixes : List String :=
  [".txt", ".docx", ".json", "_words.json", "_diarized.json", "_speakered.json",
   "_speakered.txt"]

/-- All artifact suffixes `api_rename` considers, audio first as in the
source. -/
def artifactSuffixes : List String := AUDIO_EXTS ++ companionSuffixes

/-- Candidate (source, destination) filename pairs of a rename request: one
pair per known suffix whose source file exists. -/
def renameCandidates (files : List String) (base safeNew : String) :
    List (String × String) :=
  artifactSuffixes.filterMap (fun suf =>
    if (base ++ suf) ∈ files then some (base ++ suf, safeNew ++ suf) else none)

/-- One `os.rename` on the folder contents: the source name becomes the
destination name. -/
def renameFile (files : List String) (src dst : String) : List String :=
  files.map (fun f => if f = src then dst else f)

/-- Outcome of the rename endpoint: success flag and resulting folder
contents. -/
structure RenameOutcome where
  ok : Bool
  files : List String
deriving DecidableEq, Repr

/-- Embedding of `api_rename` for a request whose new base is already
sanitized: error when no artifact of the old base exists, error without any
rename when a collision is detected, otherwise all candidate renames are
performed in order. -/
def apiRename (files : List String) (base safeNew : String) : RenameOutcome :=
  let cands := renameCandidates files base safeNew
  if cands.isEmpty then ⟨false, files⟩
  else if cands.any (fun c => decide (c.2 ∈ files)) then ⟨false, files⟩
  else ⟨true, cands.foldl (fun fs c => renameFile fs c.1 c.2) files⟩

lemma string_append_left_cancel (a s t : String) (h : a ++ s = a ++ t) : s = t := by
  have hd : a.data ++ s.data = a.data ++ t.data := by
    have h2 := congrArg String.data h
    simpa [String.data_append] using h2
  have hst : s.data = t.data := List.append_cancel_left hd
  cases s with
  | mk d1 =>
    cases t with
    | mk d2 =>
      have : d1 = d2 := hst
      rw [this]

lemma mem_renameCandidates (files : List String) (base safeNew : String)
    (c : String × String) :
    c ∈ renameCandidates files base safeNew ↔
      ∃ suf ∈ artifactSuffixes, (base ++ suf) ∈ files
        ∧ c = (base ++ suf, safeNew ++ suf) := by
  rw [renameCandidates, List.mem_filterMap]
  constructor
  · rintro ⟨suf, hsuf, hc⟩
    by_cases hmem : (base ++ suf) ∈ files
    · rw [if_pos hmem, Option.some.injEq] at hc
      exact ⟨suf, hsuf, hmem, hc.symm⟩
    · rw [if_neg hmem] at hc
      cases hc
  · rintro ⟨suf, hsuf, hmem, rfl⟩
    exact ⟨suf, hsuf, by rw [if_pos hmem]⟩

lemma filterMap_ite_fst {β : Type} (l : List String) (p : String → Prop)
    [DecidablePred p] (f g : String → β) :
    (l.filterMap (fun s => if p s then some (f s, g s) else none)).map Prod.fst
      = (l.filter (fun s => decide (p s))).map f := by
  induction l with
  | nil => rfl
  | cons a rest ih =>
    by_cases hp : p a
    · simp [List.filterMap_cons, hp, ih]
    · simp [List.filterMap_cons, hp, ih]

lemma filterMap_ite_snd {β : Type} (l : List String) (p : String → Prop)
    [DecidablePred p] (f g : String → β) :
    (l.filterMap (fun s => if p s then some (f s, g s) else none)).map Prod.snd
      = (l.filter (fun s => decide (p s))).map g := by
  induction l with
  | nil => rfl
  | cons a rest ih =>
    by_cases hp : p a
    · simp [List.filterMap_cons, hp, ih]
    · simp [List.filterMap_cons, hp, ih]

lemma renameCandidates_fst_nodup (files : List String) (base safeNew : String) :
    ((renameCandidates files base safeNew).map Prod.fst).Nodup := by
  rw [renameCandidates, filterMap_ite_fst]
  refine List.Nodup.map (fun s t h => string_append_left_cancel base s t h) ?_
  exact List.Nodup.filter _ (by decide)

lemma renameCandidates_snd_nodup (files : List String) (base safeNew : String) :
    ((renameCandidates files base safeNew).map Prod.snd).Nodup := by
  rw [renameCandidates, filterMap_ite_snd]
  refine List.Nodup.map (fun s t h => string_append_left_cancel safeNew s t h) ?_
  exact List.Nodup.filter _ (by decide)

lemma alookup_eq_none_of {α : Type} (m : List (String × α)) (k : String)
    (h : ∀ p ∈ m, p.1 ≠ k) : alookup m k = none := by
  induction m with
  | nil => rfl
  | cons p rest ih =>
    rw [alookup, if_neg (h p (List.mem_cons_self _ _))]
    exact ih (fun q hq => h q (List.mem_cons_of_mem _ hq))

lemma alookup_of_mem_nodup {α : Type} (m : List (String × α)) (k : String) (v : α)
    (hmem : (k, v) ∈ m) (hnd : (m.map Prod.fst).Nodup) : alookup m k = some v := by
  induction m with
  | nil => cases hmem
  | cons p rest ih =>
    rcases List.mem_cons.mp hmem with h | h
    · rw [← h]
      rw [alookup, if_pos rfl]
    · have hk : p.1 ≠ k := by
        intro hh
        have hk2 : k ∈ rest.map Prod.fst :=
          List.mem_map_of_mem Prod.fst h
        rw [List.map_cons] at hnd
        exact (List.nodup_cons.mp hnd).1 (hh ▸ hk2)
      rw [alookup, if_neg hk]
      exact ih h (by rw [List.map_cons] at hnd; exact (List.nodup_cons.mp hnd).2)

lemma renameFold_eq (cands : List (String × String)) :
    ∀ files : List String,
      (∀ c ∈ cands, c.1 ∈ files) →
      (∀ c ∈ cands, c.2 ∉ files) →
      (cands.map Prod.fst).Nodup →
      (cands.map Prod.snd).Nodup →
      cands.foldl (fun fs c => renameFile fs c.1 c.2) files
        = files.map (fun f => (alookup cands f).getD f) := by
  induction cands with
  | nil =>
    intro files _ _ _ _
    show files = files.map (fun f => (alookup [] f).getD f)
    rw [show (fun f => (alookup ([] : List (String × String)) f).getD f) = fun f => f from rfl]
    rw [List.map_id']
  | cons c cs ih =>
    intro files hsrc hdst hnd1 hnd2
    rw [List.map_cons, List.nodup_cons] at hnd1 hnd2
    have hstep : ∀ d ∈ cs, d.1 ∈ renameFile files c.1 c.2 := by
      intro d hd
      have hdmem : d.1 ∈ files := hsrc d (List.mem_cons_of_mem _ hd)
      have hne : d.1 ≠ c.1 := by
        intro hh
        exact hnd1.1 (hh ▸ List.mem_map_of_mem Prod.fst hd)
      rw [renameFile]
      exact List.mem_map.mpr ⟨d.1, hdmem, by rw [if_neg hne]⟩
    have hstep2 : ∀ d ∈ cs, d.2 ∉ renameFile files c.1 c.2 := by
      intro d hd hmem
      rcases List.mem_map.mp hmem with ⟨f, hf, hfd⟩
      by_cases hfc : f = c.1
      · rw [if_pos hfc] at hfd
        exact hnd2.1 (hfd ▸ List.mem_map_of_mem Prod.snd hd)
      · rw [if_neg hfc] at hfd
        exact hdst d (List.mem_cons_of_mem _ hd) (hfd ▸ hf)
    have hrec := ih (renameFile files c.1 c.2) hstep hstep2 hnd1.2 hnd2.2
    rw [List.foldl_cons, hrec, renameFile, List.map_map]
    refine List.map_congr_left ?_
    intro f hf
    by_cases hfc : f = c.1
    · have hlk : alookup cs c.2 = none := by
        refine alookup_eq_none_of cs c.2 ?_
        intro p hp hh
        exact hdst c (List.mem_cons_self _ _) (hh ▸ hsrc p (List.mem_cons_of_mem _ hp))
      show (alookup cs (if f = c.1 then c.2 else f)).getD (if f = c.1 then c.2 else f)
          = (alookup (c :: cs) f).getD f
      rw [if_pos hfc, hlk, alookup, if_pos hfc.symm]
      rfl
    · show (alookup cs (if f = c.1 then c.2 else f)).getD (if f = c.1 then c.2 else f)
          = (alookup (c :: cs) f).getD f
      rw [if_neg hfc, alookup, if_neg (fun hh => hfc hh.symm)]

/-- Claim C7: for a rename request with a valid old base (some artifact of
the base exists) and a sanitized new base, the endpoint refuses and leaves
the folder unchanged whenever any target filename derived from the new base
already exists; on success every artifact sharing the old base is renamed
to the new base — the old names disappear, the new names appear — and
unrelated files are kept, preserving the shared-base identification of a
meeting's artifacts. -/
theorem rename_collision_safe (files : List String) (base safeNew : String)
    (hsome : renameCandidates files base safeNew ≠ []) :
    ((∃ c ∈ renameCandidates files base safeNew, c.2 ∈ files) →
        apiRename files base safeNew = ⟨false, files⟩) ∧
    ((∀ c ∈ renameCandidates files base safeNew, c.2 ∉ files) →
        (apiRename files base safeNew).ok = true ∧
        (∀ suf ∈ artifactSuffixes, (base ++ suf) ∈ files →
          (safeNew ++ suf) ∈ (apiRename files base safeNew).files ∧
          (base ++ suf) ∉ (apiRename files base safeNew).files) ∧
        (∀ f ∈ files, (∀ suf ∈ artifactSuffixes, f ≠ base ++ suf) →
          f ∈ (apiRename files base safeNew).files)) := by
  have hne : (renameCandidates files base safeNew).isEmpty = false := by
    cases h : renameCandidates files base safeNew with
    | nil => exact absurd h hsome
    | cons a l => rfl
  constructor
  · rintro ⟨c, hc, hcf⟩
    have hany : (renameCandidates files base safeNew).any
        (fun c => decide (c.2 ∈ files)) = true := by
      rw [List.any_eq_true]
      exact ⟨c, hc, by simpa using hcf⟩
    simp only [apiRename, hne, Bool.false_eq_true, if_false, hany, if_true]
  · intro hnocol
    have hany : (renameCandidates files base safeNew).any
        (fun c => decide (c.2 ∈ files)) = false := by
      rw [List.any_eq_false]
      intro c hc
      simpa using hnocol c hc
    have hsrc : ∀ c ∈ renameCandidates files base safeNew, c.1 ∈ files := by
      intro c hc
      rcases (mem_renameCandidates files base safeNew c).mp hc with ⟨suf, _, hmem, rfl⟩
      exact hmem
    have hfold := renameFold_eq (renameCandidates files base safeNew) files hsrc hnocol
      (renameCandidates_fst_nodup files base safeNew)
      (renameCandidates_snd_nodup files base safeNew)
    have happ : apiRename files base safeNew
        = ⟨true, files.map
            (fun f => (alookup (renameCandidates files base safeNew) f).getD f)⟩ := by
      simp only [apiRename, hne, Bool.false_eq_true, if_false, hany, hfold]
    refine ⟨by rw [happ], ?_, ?_⟩
    · intro suf hsuf hmem
      have hcand : (base ++ suf, safeNew ++ suf) ∈ renameCandidates files base safeNew :=
        (mem_renameCandidates files base safeNew _).mpr ⟨suf, hsuf, hmem, rfl⟩
      have hlk : alookup (renameCandidates files base safeNew) (base ++ suf)
          = some (safeNew ++ suf) :=
        alookup_of_mem_nodup _ _ _ hcand (renameCandidates_fst_nodup files base safeNew)
      constructor
      · rw [happ]
        exact List.mem_map.mpr ⟨base ++ suf, hmem, by rw [hlk]; rfl⟩
      · rw [happ]
        intro hmem2
        rcases List.mem_map.mp hmem2 with ⟨f, hf, hfd⟩
        cases hlf : alookup (renameCandidates files base safeNew) f with
        | some v =>
          rw [hlf] at hfd
          have hv : v = base ++ suf := hfd
          have hvmem : (f, v) ∈ renameCandidates files base safeNew :=
            alookup_mem _ _ _ hlf
          exact hnocol (f, v) hvmem (by rw [show (f, v).2 = v from rfl, hv]; exact hmem)
        | none =>
          rw [hlf] at hfd
          have hfb : f = base ++ suf := hfd
          have : alookup (renameCandidates files base safeNew) (base ++ suf) = none :=
            hfb ▸ hlf
          rw [hlk] at this
          cases this
    · intro f hf hnosuf
      have hlk : alookup (renameCandidates files base safeNew) f = none := by
        refine alookup_eq_none_of _ _ ?_
        intro p hp hh
        rcases (mem_renameCandidates files base safeNew p).mp hp with ⟨suf, hsuf, _, rfl⟩
        exact hnosuf suf hsuf hh.symm
      rw [happ]
      exact List.mem_map.mpr ⟨f, hf, by rw [hlk]; rfl⟩

/-- Witness for claim C7 at a concrete folder: renaming base `m` to `n`
succeeds, the artifacts move to the new base, and the unrelated file
stays. -/
theorem rename_collision_safe_witness :
    (apiRename ["m.wav", "m.txt", "other.wav"] "m" "n").ok = true ∧
    "n.wav" ∈ (apiRename ["m.wav", "m.txt", "other.wav"] "m" "n").files ∧
    "m.wav" ∉ (apiRename ["m.wav", "m.txt", "other.wav"] "m" "n").files ∧
    "other.wav" ∈ (apiRename ["m.wav", "m.txt", "other.wav"] "m" "n").files := by
  have h := (rename_collision_safe ["m.wav", "m.txt", "other.wav"] "m" "n"
      (by decide)).2 (by decide)
  have h2 := h.2.1 ".wav" (by decide) (by decide)
  exact ⟨h.1, h2.1, h2.2, h.2.2 "other.wav" (by decide) (by decide)⟩

/-- Claim C3: the capture loop keeps recording while every frame so far is
speech or the current contiguous silence run is within the 2-second timeout,
speech frames reset the silence timer, and the loop stops exactly on the
first silence frame arriving more than the timeout after the start of its
contiguous silence run: the loop's stopping index coincides, on every frame
sequence, with the first index satisfying that spec-level stop condition. -/
theorem recording_stops_exactly_at_silence_timeout (frames : List Frame) :
    recLoop frames = specStop frames := by
  have := recLoopAux_spec frames []
  simpa [recLoop, specStop, curRunStart_nil] using this

end MeetScribe
